import Mathlib

/-!
Verification of the run-view core of the dagit run page.

The repository file `src/js_modules/dagit/src/runs/RunFragments.tsx` contains the
`Run` / `RunWithData` components: the initial step selection, the
`selectedKeysForFilter` reduction over `query` filter tokens, the `onClickStep`
selection handler and the mapping from selected keys to step lifecycle states.
Those are embedded below directly from the source.

The three core subsystems the spec describes — the Event-to-State Reducer
(`deriveRunMetadata`, living in `RunMetadataProvider`), the Selection Query
Engine (`queryStringToSelection`, living in `gantt/GanttChart`) and the
Log/Selection Filter (`applyFilter`, living in `LogsProvider`) — are imported by
the source file but their implementations are not part of this repository
snapshot, so they are modelled from the spec (each such definition says so in
its doc comment).
-/

/-- Per-step lifecycle state (spec §4.1; `IStepState` imported from
`RunMetadataProvider` in the source). -/
inductive IStepState
  | preparing
  | running
  | succeeded
  | failed
  | skipped
  | retry
  | unknown
  deriving DecidableEq, Repr

/-- Discriminant of a run event (spec §3 `RunEvent` variants), with an explicit
fallback constructor for unrecognized variants. -/
inductive EventVariant
  | stepStart
  | stepSuccess
  | stepFailure
  | stepSkipped
  | stepRetryRequested
  | materialization
  | expectationResult
  | other (tag : String)
  deriving DecidableEq, Repr

/-- A run event: message, logical timestamp, level, optional step attribution
and the discriminant variant (spec §3 `RunEvent`). -/
structure RunEvent where
  message : String
  timestamp : Nat
  level : String
  stepKey : Option String
  variant : EventVariant
  deriving DecidableEq, Repr

/-- Derived runtime state of one step (spec §3 `StepRuntimeState`): lifecycle
state, first-seen start timestamp, last terminal timestamp, and the ordered
marker list (materializations / expectation results, never de-duplicated). -/
structure StepRecord where
  state : IStepState
  startT : Option Nat
  endT : Option Nat
  markers : List (String × Nat)
  deriving DecidableEq, Repr

/-- State of a step before any event references it. -/
def initialStepRecord : StepRecord :=
  { state := .preparing, startT := none, endT := none, markers := [] }

/-- The three terminal lifecycle states. -/
def isTerminal : IStepState → Bool
  | .succeeded | .failed | .skipped => true
  | _ => false

/-- Events that carry a terminal lifecycle transition. -/
def isTerminalEvent : EventVariant → Bool
  | .stepSuccess | .stepFailure | .stepSkipped => true
  | _ => false

/-- An event is stale for a record when the record has a terminal timestamp
strictly later than the event's timestamp (spec §4.1: resolve by timestamp,
falling back to log order — i.e. the incoming event — when timestamps tie). -/
def staleFor (r : StepRecord) (e : RunEvent) : Bool :=
  match r.endT with
  | some tEnd => decide (e.timestamp < tEnd)
  | none => false

/-- Modelled from the spec: terminal transition of the Event-to-State Reducer
(spec §4.1, implemented by `RunMetadataProvider`, which is not part of this
repository snapshot). The end timestamp tracks the last terminal event; a
terminal state is never replaced by a different terminal state except through a
retry. -/
def applyTerminal (r : StepRecord) (e : RunEvent) (t : IStepState) : StepRecord :=
  if isTerminal r.state = true then { r with endT := some e.timestamp }
  else { r with state := t, endT := some e.timestamp }

/-- Modelled from the spec: per-step transition function of the Event-to-State
Reducer (spec §4.1, implemented by `RunMetadataProvider`, which is not part of
this repository snapshot).  A start event moves the step to `RUNNING` (keeping
the first-seen start time) unless it is a stale start arriving after a
later-timestamped terminal event; terminal events record the terminal state and
end time; a retry request moves a running or (non-stale) terminal step to
`RETRY`; materializations and expectation results are appended to the marker
list in log order; unrecognized variants are ignored for state purposes. -/
def applyStepEvent (r : StepRecord) (e : RunEvent) : StepRecord :=
  match e.variant with
  | .stepStart =>
      if isTerminal r.state = true ∧ staleFor r e = true then r
      else { r with state := .running, startT := some (r.startT.getD e.timestamp) }
  | .stepSuccess => applyTerminal r e .succeeded
  | .stepFailure => applyTerminal r e .failed
  | .stepSkipped => applyTerminal r e .skipped
  | .stepRetryRequested =>
      if r.state = .running ∨ (isTerminal r.state = true ∧ staleFor r e = false) then
        { r with state := .retry }
      else r
  | .materialization => { r with markers := r.markers ++ [(e.message, e.timestamp)] }
  | .expectationResult => { r with markers := r.markers ++ [(e.message, e.timestamp)] }
  | .other _ => r

/-- Apply an event to a step record only when the event is attributed to that
step key; run-level and other-step events leave the record unchanged. -/
def applyEventForKey (k : String) (r : StepRecord) (e : RunEvent) : StepRecord :=
  if e.stepKey = some k then applyStepEvent r e else r

/-- Fold the full ordered event log into the runtime record of one step. -/
def stepRecordOf (events : List RunEvent) (k : String) : StepRecord :=
  events.foldl (applyEventForKey k) initialStepRecord

/-- First-occurrence de-duplication, keeping log order (spec §4.2
first-seen-wins determinism); `seen` holds the keys already emitted. -/
def firstSeenDedup (seen : List String) : List String → List String
  | [] => []
  | k :: rest =>
      if k ∈ seen then firstSeenDedup seen rest
      else k :: firstSeenDedup (k :: seen) rest

/-- The step keys referenced by at least one event, in first-seen order. -/
def referencedKeys (events : List RunEvent) : List String :=
  firstSeenDedup [] (events.filterMap (fun e => e.stepKey))

/-- One step of the execution plan: its unique key and the keys of the steps it
depends on (spec §3 `ExecutionStep`, with the ordered inputs flattened to their
upstream dependency keys as in the spec's adjacency index design note). -/
structure GraphStep where
  key : String
  dependsOn : List String
  deriving DecidableEq, Repr

/-- The execution plan graph: the full list of steps (spec §3). -/
abbrev ExecutionPlanGraph := List GraphStep

/-- Minimum of two optional timestamps, treating `none` as absent. -/
def optMinT (a b : Option Nat) : Option Nat :=
  match a, b with
  | none, x => x
  | x, none => x
  | some x, some y => some (min x y)

/-- Maximum of two optional timestamps, treating `none` as absent. -/
def optMaxT (a b : Option Nat) : Option Nat :=
  match a, b with
  | none, x => x
  | x, none => x
  | some x, some y => some (max x y)

/-- The aggregate metadata snapshot: per-step records keyed by step key, plus
run-level earliest start and latest end (spec §3 `RunMetadataSnapshot`). -/
structure RunMetadataSnapshot where
  steps : List (String × StepRecord)
  runStart : Option Nat
  runEnd : Option Nat
  deriving DecidableEq, Repr

/-- Modelled from the spec: the Event-to-State Reducer `deriveRunMetadata`
(spec §4.1 / §6, implemented by `RunMetadataProvider`, which is not part of this
repository snapshot).  A pure function of the optional plan and the full
ordered event log: each referenced step key is mapped to the fold of the log
over the per-step transition function, and the run-level start/end are the
min/max over the step timings. -/
def deriveRunMetadata (plan : Option ExecutionPlanGraph) (events : List RunEvent) :
    RunMetadataSnapshot :=
  let _ := plan
  let steps := (referencedKeys events).map (fun k => (k, stepRecordOf events k))
  { steps := steps
    runStart := steps.foldl (fun acc p => optMinT acc p.2.startT) none
    runEnd := steps.foldl (fun acc p => optMaxT acc p.2.endT) none }

/-- Lifecycle state recorded in a snapshot for a step key; a key absent from
the step map is in its initial `PREPARING` state. -/
def stateOf (m : RunMetadataSnapshot) (k : String) : IStepState :=
  match List.lookup k m.steps with
  | some r => r.state
  | none => .preparing

/-- Append each event of the log twice, in the same order. -/
def duplicateEach : List RunEvent → List RunEvent
  | [] => []
  | e :: rest => e :: e :: duplicateEach rest

/-- Direct upstream dependency keys of a step in the plan. -/
def dependsOnKeys (g : ExecutionPlanGraph) (k : String) : List String :=
  match g.find? (fun s => s.key == k) with
  | some s => s.dependsOn
  | none => []

/-- Direct downstream dependent keys of a step in the plan (inverse edges). -/
def dependentKeys (g : ExecutionPlanGraph) (k : String) : List String :=
  (g.filter (fun s => s.dependsOn.contains k)).map (fun s => s.key)

/-- Modelled from the spec: transitive upstream traversal of the Selection
Query Engine (spec §4.2, implemented by `gantt/GanttChart`, which is not part
of this repository snapshot).  Ancestors are emitted deepest-first so that the
result is in upstream-first-seen order; the fuel argument bounds the traversal
by the number of steps, which terminates it even on malformed cyclic plans. -/
def upstreamOf (g : ExecutionPlanGraph) : Nat → String → List String
  | 0, _ => []
  | fuel + 1, k => ((dependsOnKeys g k).map (fun d => upstreamOf g fuel d ++ [d])).flatten

/-- Modelled from the spec: transitive downstream traversal of the Selection
Query Engine (spec §4.2), symmetric to `upstreamOf` over the inverse edges. -/
def downstreamOf (g : ExecutionPlanGraph) : Nat → String → List String
  | 0, _ => []
  | fuel + 1, k => ((dependentKeys g k).map (fun d => d :: downstreamOf g fuel d)).flatten

/-- Whitespace as trimmed from query clauses. -/
def isSpaceChar (c : Char) : Bool :=
  c == ' ' || c == '\t' || c == '\n' || c == '\r'

/-- Trim whitespace from both ends of a string (character-level implementation
so that concrete queries evaluate by kernel reduction). -/
def strTrim (s : String) : String :=
  ⟨((s.data.dropWhile isSpaceChar).reverse.dropWhile isSpaceChar).reverse⟩

/-- Split a character list on commas; always returns at least one piece. -/
def splitCommaChars : List Char → List (List Char)
  | [] => [[]]
  | c :: rest =>
      match splitCommaChars rest with
      | [] => [[]]
      | cur :: done => if c == ',' then [] :: cur :: done else (c :: cur) :: done

/-- Split a string on commas (the clause separator of spec §4.2). -/
def strSplitOnComma (s : String) : List String :=
  (splitCommaChars s.data).map (fun cs => ⟨cs⟩)

/-- Whether the first character of the string is `c`. -/
def strHeadIs (s : String) (c : Char) : Bool :=
  match s.data with
  | [] => false
  | a :: _ => a == c

/-- Whether the last character of the string is `c`. -/
def strLastIs (s : String) (c : Char) : Bool :=
  match s.data.getLast? with
  | some a => a == c
  | none => false

/-- Drop the first character of a string. -/
def strDropHead (s : String) : String := ⟨s.data.tail⟩

/-- Drop the last character of a string. -/
def strDropLast (s : String) : String := ⟨s.data.dropLast⟩

/-- Modelled from the spec: name-pattern matching of a selection clause
(spec §4.2): exact key match, or glob-style prefix/suffix match when the
pattern ends/starts with `*`. -/
def matchName (pat : String) (key : String) : Bool :=
  if strLastIs pat '*' then (strDropLast pat).data.isPrefixOf key.data
  else if strHeadIs pat '*' then (strDropHead pat).data.isSuffixOf key.data
  else pat == key

/-- Modelled from the spec: resolution of one selection clause (spec §4.2).
`*` matches every step; a `+` prefix adds all transitive upstream dependencies
before the matched key; a `+` suffix adds all transitive downstream dependents
after it. -/
def resolveClause (g : ExecutionPlanGraph) (clause : String) : List String :=
  if clause = "*" then g.map (fun s => s.key)
  else
    let up := strHeadIs clause '+'
    let afterUp := if up then strDropHead clause else clause
    let down := strLastIs afterUp '+'
    let name := if down then strDropLast afterUp else afterUp
    let matched := (g.filter (fun s => matchName name s.key)).map (fun s => s.key)
    (matched.map (fun m =>
      (if up then upstreamOf g g.length m else []) ++ [m] ++
      (if down then downstreamOf g g.length m else []))).flatten

/-- Modelled from the spec: the Selection Query Engine `queryStringToSelection`
(spec §4.2 `resolveSelection`, implemented by `gantt/GanttChart`, which is not
part of this repository snapshot).  The query is a comma-separated union of
clauses; clause results are concatenated and de-duplicated preserving
first-occurrence order; the empty query resolves to the empty selection. -/
def queryStringToSelection (g : ExecutionPlanGraph) (q : String) : List String :=
  if strTrim q = "" then []
  else firstSeenDedup [] (((strSplitOnComma q).map strTrim).map (resolveClause g)).flatten

/-- Spec-level name of the Selection Query Engine entry point (spec §6). -/
def resolveSelection (g : ExecutionPlanGraph) (q : String) : List String :=
  queryStringToSelection g q

/-- One `token:value` pair of the log filter (spec §3 `FilterState`). -/
structure LogToken where
  token : String
  value : String
  deriving DecidableEq, Repr

/-- The parsed log filter: token pairs, free-text remainder and the focused
timestamp, which never filters (spec §3 `FilterState`, §4.3). -/
structure LogFilter where
  tokens : List LogToken
  text : String
  focusedTime : Option Nat
  deriving DecidableEq, Repr

/-- Modelled from the spec: the event-variant category a `type:` token matches
against (spec §4.3 token vocabulary). -/
def variantCategory : EventVariant → String
  | .stepStart => "start"
  | .stepSuccess => "success"
  | .stepFailure => "failure"
  | .stepSkipped => "skipped"
  | .stepRetryRequested => "retry"
  | .materialization => "materialization"
  | .expectationResult => "expectation"
  | .other tag => tag

/-- The token kinds the filter recognizes (spec §4.3 token vocabulary:
`step`, `query`, `type`; unrecognized tokens are ignored). -/
def recognizedTokenKinds : List String := ["step", "query", "type"]

/-- Modelled from the spec: whether one filter token matches an event
(spec §4.3).  `step` compares the literal step key, `query` tests membership in
the resolved selection, `type` compares the event-variant category. -/
def tokenMatches (sel : List String) (t : LogToken) (e : RunEvent) : Bool :=
  if t.token = "step" then decide (e.stepKey = some t.value)
  else if t.token = "query" then
    match e.stepKey with
    | some k => sel.contains k
    | none => false
  else if t.token = "type" then variantCategory e.variant == t.value
  else false

/-- Modelled from the spec: an event passes one token kind when the filter has
no token of that kind, or some token of that kind matches it (logical OR among
repeated tokens of the same kind, spec §4.3). -/
def kindPasses (tokens : List LogToken) (sel : List String) (kind : String) (e : RunEvent) :
    Bool :=
  let ts := tokens.filter (fun t => t.token == kind)
  ts.isEmpty || ts.any (fun t => tokenMatches sel t e)

/-- Modelled from the spec: an event passes the filter when it passes every
recognized token kind (logical AND across distinct kinds, spec §4.3). -/
def passesFilter (f : LogFilter) (sel : List String) (e : RunEvent) : Bool :=
  recognizedTokenKinds.all (fun kind => kindPasses f.tokens sel kind e)

/-- ASCII lower-casing of one character. -/
def charToLower (c : Char) : Char :=
  if 'A' ≤ c ∧ c ≤ 'Z' then Char.ofNat (c.toNat + 32) else c

/-- Case-insensitive substring test on the message text (spec §4.3 free-text
narrowing), implemented at character level. -/
def msgContainsCI (msg pat : String) : Bool :=
  let cs := msg.data.map charToLower
  let ps := pat.data.map charToLower
  (List.range (cs.length + 1)).any (fun i => ps.isPrefixOf (cs.drop i))

/-- The three views the Log/Selection Filter produces (spec §4.3). -/
structure FilteredViews where
  allNodes : List RunEvent
  filteredNodes : List RunEvent
  textMatchNodes : List RunEvent
  deriving DecidableEq, Repr

/-- Modelled from the spec: the Log/Selection Filter `applyFilter` (spec §4.3 /
§6, implemented by `LogsProvider`, which is not part of this repository
snapshot).  `allNodes` is the log in order, `filteredNodes` the events passing
every recognized token kind, and `textMatchNodes` the filtered events whose
message contains the free-text remainder case-insensitively. -/
def applyFilter (f : LogFilter) (events : List RunEvent) (sel : List String) :
    FilteredViews :=
  let filtered := events.filter (passesFilter f sel)
  { allNodes := events
    filteredNodes := filtered
    textMatchNodes := filtered.filter (fun e => msgContainsCI e.message f.text) }

/-- A step selection: the query string and its resolved keys
(`StepSelection` in the source). -/
structure StepSelection where
  query : String
  keys : List String
  deriving DecidableEq, Repr

/-- Embedded from `RunFragments.tsx` (`Run`, `selectedKeysForFilter`): with a
plan, the `query` tokens of the log filter are each resolved through
`queryStringToSelection` and the results concatenated (the source's spread
`[...accum, ...]` reduce); without a plan the result is empty.  The source's
`v.token && v.token === 'query'` test is equivalent to equality with the
non-empty literal `"query"`. -/
def selectedKeysForFilter (executionPlan : Option ExecutionPlanGraph)
    (logQuery : List LogToken) : List String :=
  match executionPlan with
  | some plan =>
      (logQuery.filter (fun v => v.token == "query")).foldl
        (fun accum v => accum ++ queryStringToSelection plan v.value) []
  | none => []

/-- Embedded from `RunFragments.tsx` (`Run`, initial `selection` state): with
no step query or no execution plan the selection falls back to the query `*`
with no keys; otherwise the step query is resolved. -/
def initialSelection (stepQuery : String) (executionPlan : Option ExecutionPlanGraph) :
    StepSelection :=
  if stepQuery = "" then { query := "*", keys := [] }
  else
    match executionPlan with
    | none => { query := "*", keys := [] }
    | some plan => { query := stepQuery, keys := queryStringToSelection plan stepQuery }

/-- Embedded from `RunFragments.tsx` (`Run`, `onSetSelection`): the log filter
keeps one `query` token holding the selection query, except that the
everything-query `*` clears the token list. -/
def logQueryAfterSetSelection (selection : StepSelection) : List LogToken :=
  if selection.query ≠ "*" then [{ token := "query", value := selection.query }] else []

/-- The first index of `k` in `l`, or `none` — JavaScript's `indexOf` with a
miss rendered as `none` instead of `-1`. -/
def jsIndexOf (l : List String) (k : String) : Option Nat :=
  match l with
  | [] => none
  | a :: rest => if a == k then some 0 else (jsIndexOf rest k).map (fun i => i + 1)

/-- Embedded from `RunFragments.tsx` (`RunWithData`, `onClickStep`):
shift-click removes the clicked key at its found index or pushes it at the end;
a plain click clears a singleton selection of the clicked key and otherwise
selects exactly the clicked key; the new query is the `", "`-join of the new
keys, falling back to `*` when that join is the empty string (JavaScript's
`newSelected.join(', ') || '*'`). -/
def onClickStep (selection : StepSelection) (stepKey : String) (shiftKey : Bool) :
    StepSelection :=
  let index := jsIndexOf selection.keys stepKey
  let newSelected : List String :=
    if shiftKey then
      match index with
      | some i => selection.keys.eraseIdx i
      | none => selection.keys ++ [stepKey]
    else
      if selection.keys.length = 1 ∧ index ≠ none then []
      else [stepKey]
  let joined := String.intercalate ", " newSelected
  { query := if joined = "" then "*" else joined, keys := newSelected }

/-- Embedded from `RunFragments.tsx` (`RunWithData`, the `selectionStates`
argument of `RunActionButtons`): `(key && metadata.steps[key]?.state) ||
IStepState.PREPARING` — an empty key or a key absent from the step map yields
`PREPARING`. -/
def stateForKey (steps : List (String × StepRecord)) (key : String) : IStepState :=
  if key = "" then .preparing
  else
    match List.lookup key steps with
    | some r => r.state
    | none => .preparing

/-- Embedded from `RunFragments.tsx` (`RunWithData`): the selected keys mapped
to their lifecycle states. -/
def selectionStates (keys : List String) (steps : List (String × StepRecord)) :
    List IStepState :=
  keys.map (stateForKey steps)

/-- The three-step chain graph of spec §8: `B` depends on `A`, `C` on `B`. -/
def chainABC : ExecutionPlanGraph :=
  [{ key := "A", dependsOn := [] },
   { key := "B", dependsOn := ["A"] },
   { key := "C", dependsOn := ["B"] }]

/-- Sample event: step `A` starts at time 1. -/
def evStartA : RunEvent := ⟨"step A started", 1, "INFO", some "A", .stepStart⟩

/-- Sample event: step `A` fails at time 2. -/
def evFailA : RunEvent := ⟨"step A failed", 2, "ERROR", some "A", .stepFailure⟩

/-- Sample event: step `B` starts at time 3. -/
def evStartB : RunEvent := ⟨"step B started", 3, "INFO", some "B", .stepStart⟩

/-- Sample event: step `B` fails at time 4. -/
def evFailB : RunEvent := ⟨"step B failed", 4, "ERROR", some "B", .stepFailure⟩

/-- A log whose events are tagged with the two distinct step keys `A`, `B`. -/
def twoStepEvents : List RunEvent := [evStartA, evFailA, evStartB, evFailB]

/-- The filter `step:A type:failure` with no free text. -/
def stepAFailureFilter : LogFilter := ⟨[⟨"step", "A"⟩, ⟨"type", "failure"⟩], "", none⟩

/-- A record already in a terminal state, with end timestamp 5. -/
def sampleTerminalRecord : StepRecord := ⟨.succeeded, some 1, some 5, []⟩

/-- A start event whose timestamp 3 is earlier than `sampleTerminalRecord`'s
end timestamp 5: a stale start. -/
def staleStartEvent : RunEvent := ⟨"late start", 3, "INFO", some "A", .stepStart⟩

/-- A start event whose timestamp ties `sampleTerminalRecord`'s end
timestamp 5. -/
def tieStartEvent : RunEvent := ⟨"tie start", 5, "INFO", some "A", .stepStart⟩

/-- Membership in the de-duplicated list: exactly the members of the input not
already seen. -/
theorem mem_firstSeenDedup (k : String) :
    ∀ (l seen : List String), k ∈ firstSeenDedup seen l ↔ k ∈ l ∧ k ∉ seen := by
  intro l
  induction l with
  | nil => intro seen; simp [firstSeenDedup]
  | cons a rest ih =>
    intro seen
    simp only [firstSeenDedup]
    split
    · rename_i ha
      rw [ih, List.mem_cons]
      constructor
      · tauto
      · rintro ⟨h | h, hs⟩
        · subst h; exact absurd ha hs
        · exact ⟨h, hs⟩
    · rename_i ha
      rw [List.mem_cons, ih]
      constructor
      · rintro (h | ⟨h1, h2⟩)
        · subst h
          exact ⟨List.mem_cons_self _ _, ha⟩
        · exact ⟨List.mem_cons_of_mem _ h1, fun hs => h2 (List.mem_cons_of_mem _ hs)⟩
      · rintro ⟨hk, hs⟩
        rcases List.mem_cons.mp hk with h | h
        · exact Or.inl h
        · by_cases hka : k = a
          · exact Or.inl hka
          · refine Or.inr ⟨h, fun hmem => ?_⟩
            rcases List.mem_cons.mp hmem with h2 | h2
            · exact hka h2
            · exact hs h2

/-- The de-duplicated list has no duplicates. -/
theorem nodup_firstSeenDedup : ∀ (l seen : List String), (firstSeenDedup seen l).Nodup := by
  intro l
  induction l with
  | nil => intro seen; simp [firstSeenDedup]
  | cons a rest ih =>
    intro seen
    simp only [firstSeenDedup]
    split
    · exact ih seen
    · rw [List.nodup_cons]
      refine ⟨fun hmem => ?_, ih (a :: seen)⟩
      rw [mem_firstSeenDedup] at hmem
      exact hmem.2 (List.mem_cons_self _ _)

/-- Association lookup over a list of keys paired with a function of the key. -/
theorem lookup_map_pair (f : String → StepRecord) (k : String) :
    ∀ (l : List String),
      List.lookup k (l.map (fun x => (x, f x))) = if k ∈ l then some (f k) else none := by
  intro l
  induction l with
  | nil => simp
  | cons a rest ih =>
    simp only [List.map_cons, List.lookup, List.mem_cons]
    by_cases hk : k = a
    · subst hk; simp
    · have hne : (k == a) = false := by simp [hk]
      simp [hne, ih, hk]

/-- C3: on the chain graph in which `B` depends on `A` and `C` depends on `B`,
`resolveSelection` returns `[A, B, C]` in upstream-first-seen order for `+C`,
`[A, B, C]` for `A+`, exactly `[B]` for `B`, all steps for `*`, and the empty
sequence for the empty string. -/
theorem resolveSelection_chainGraph :
    resolveSelection chainABC "+C" = ["A", "B", "C"] ∧
    resolveSelection chainABC "A+" = ["A", "B", "C"] ∧
    resolveSelection chainABC "B" = ["B"] ∧
    resolveSelection chainABC "*" = ["A", "B", "C"] ∧
    resolveSelection chainABC "" = [] := by
  refine ⟨?_, ?_, ?_, ?_, ?_⟩ <;> decide

/-- C4 counterexample: `onClickStep` maps an emptied selection to the
everything-query `*` — deselecting the sole selected step produces empty keys
paired with the query `*`, so the handling layer does map an empty selection to
the everything-query. -/
theorem onClickStep_empty_becomes_star :
    (onClickStep ⟨"B", ["B"]⟩ "B" false).keys = [] ∧
    (onClickStep ⟨"B", ["B"]⟩ "B" false).query = "*" := by
  refine ⟨?_, ?_⟩ <;> decide

/-- C4 amended: the query engine itself keeps the distinction — the empty
string resolves to the empty selection and `*` resolves to every step of the
graph — and `onSetSelection` drops the filter token exactly for the query `*`;
but `onClickStep` deliberately represents an emptied selection by the
everything-query `*` paired with no keys. -/
theorem emptyVsStar_distinction (g : ExecutionPlanGraph) :
    queryStringToSelection g "" = [] ∧
    (∀ k, k ∈ queryStringToSelection g "*" ↔ ∃ s, s ∈ g ∧ s.key = k) ∧
    (∀ sel : StepSelection, logQueryAfterSetSelection sel = [] ↔ sel.query = "*") ∧
    onClickStep ⟨"B", ["B"]⟩ "B" false = ⟨"*", []⟩ := by
  refine ⟨rfl, ?_, ?_, by decide⟩
  · intro k
    have h1 : queryStringToSelection g "*"
        = firstSeenDedup [] (g.map (fun s => s.key) ++ []) := rfl
    rw [List.append_nil] at h1
    rw [h1, mem_firstSeenDedup]
    simp [List.mem_map, eq_comm]
  · intro sel
    by_cases h : sel.query = "*" <;> simp [logQueryAfterSetSelection, h]

/-- C5 counterexample: `selectedKeysForFilter` concatenates the resolutions of
multiple `query` tokens without de-duplicating, so two tokens resolving to `A`
yield `A` twice. -/
theorem selectedKeysForFilter_not_deduped :
    selectedKeysForFilter (some chainABC) [⟨"query", "A"⟩, ⟨"query", "A"⟩] = ["A", "A"] ∧
    ¬ (selectedKeysForFilter (some chainABC) [⟨"query", "A"⟩, ⟨"query", "A"⟩]).Nodup := by
  refine ⟨by decide, by decide⟩

/-- C5 amended: within one query string the resolved result is de-duplicated
preserving first-occurrence order — every resolution is duplicate-free and
`A, +C` on the chain graph contains each of `A`, `B`, `C` exactly once — but
across multiple `query` tokens `selectedKeysForFilter` concatenates the
per-token resolutions without de-duplication. -/
theorem resolveSelection_dedup (g : ExecutionPlanGraph) (q : String) :
    (resolveSelection g q).Nodup ∧
    resolveSelection chainABC "A, +C" = ["A", "B", "C"] ∧
    selectedKeysForFilter (some chainABC) [⟨"query", "A"⟩, ⟨"query", "A"⟩] = ["A", "A"] := by
  refine ⟨?_, by decide, by decide⟩
  unfold resolveSelection queryStringToSelection
  split
  · simp
  · exact nodup_firstSeenDedup _ _

/-- C8 counterexample: with a missing execution plan, `selectedKeysForFilter`
resolves a `query` token to the empty selection, not to the literal step name
it carries. -/
theorem missingPlan_not_literal :
    selectedKeysForFilter none [⟨"query", "A"⟩] = [] ∧
    selectedKeysForFilter none [⟨"query", "A"⟩] ≠ ["A"] := by
  refine ⟨rfl, by decide⟩

/-- C8 amended: when the execution plan is missing the selection operations
degrade to the empty selection — `selectedKeysForFilter` returns no keys for
any token list and the initial selection falls back to the query `*` with no
keys — and, being total functions, they return a well-typed result rather than
raising. -/
theorem missingPlan_degrades (logQuery : List LogToken) (stepQuery : String) :
    selectedKeysForFilter none logQuery = [] ∧
    initialSelection stepQuery none = ⟨"*", []⟩ := by
  refine ⟨rfl, ?_⟩
  by_cases h : stepQuery = "" <;> simp [initialSelection, h]

/-- C9: a step key referenced by no event derives the lifecycle state
`PREPARING`, and the source's per-key state mapping yields `PREPARING` for any
key absent from the snapshot's step map. -/
theorem absentKey_preparing :
    (∀ (plan : Option ExecutionPlanGraph) (events : List RunEvent) (key : String),
        (∀ e ∈ events, e.stepKey ≠ some key) →
        stateOf (deriveRunMetadata plan events) key = .preparing) ∧
    (∀ (steps : List (String × StepRecord)) (key : String),
        List.lookup key steps = none → stateForKey steps key = .preparing) := by
  constructor
  · intro plan events key h
    have hmem : key ∉ referencedKeys events := by
      rw [referencedKeys, mem_firstSeenDedup]
      rintro ⟨hk, -⟩
      rw [List.mem_filterMap] at hk
      obtain ⟨e, he, hke⟩ := hk
      exact h e he hke
    have hsteps : (deriveRunMetadata plan events).steps
        = (referencedKeys events).map (fun k => (k, stepRecordOf events k)) := rfl
    simp only [stateOf]
    rw [hsteps, lookup_map_pair, if_neg hmem]
  · intro steps key h
    by_cases hk : key = ""
    · simp [stateForKey, hk]
    · simp [stateForKey, hk, h]

/-- Witness for C9 at a concrete input: key `Z` is referenced by no event of
the one-event log, and is absent from the empty step map. -/
theorem absentKey_preparing_witness :
    stateOf (deriveRunMetadata none [evStartA]) "Z" = .preparing ∧
    stateForKey [] "Z" = .preparing :=
  ⟨absentKey_preparing.1 none [evStartA] "Z" (by decide),
   absentKey_preparing.2 [] "Z" rfl⟩

/-- An event passes one token kind exactly when, if tokens of that kind are
present, at least one of them matches the event. -/
theorem kindPasses_iff (tokens : List LogToken) (sel : List String) (kind : String)
    (e : RunEvent) :
    kindPasses tokens sel kind e = true ↔
      ((∃ t ∈ tokens, t.token = kind) →
        ∃ t ∈ tokens, t.token = kind ∧ tokenMatches sel t e = true) := by
  unfold kindPasses
  simp only [Bool.or_eq_true, List.any_eq_true, List.mem_filter, beq_iff_eq]
  constructor
  · rintro (hempty | ⟨t, ⟨ht, htk⟩, hm⟩) hex
    · obtain ⟨t, ht, htk⟩ := hex
      have hmem : t ∈ tokens.filter (fun t => t.token == kind) :=
        List.mem_filter.mpr ⟨ht, by simp [htk]⟩
      rw [List.isEmpty_iff] at hempty
      rw [hempty] at hmem
      exact absurd hmem (List.not_mem_nil t)
    · exact ⟨t, ht, htk, hm⟩
  · intro himp
    by_cases hex : ∃ t ∈ tokens, t.token = kind
    · obtain ⟨t, ht, htk, hm⟩ := himp hex
      exact Or.inr ⟨t, ⟨ht, htk⟩, hm⟩
    · left
      rw [List.isEmpty_iff, List.eq_nil_iff_forall_not_mem]
      intro t hmem
      obtain ⟨ht, htk⟩ := List.mem_filter.mp hmem
      exact hex ⟨t, ht, by simpa using htk⟩

/-- C6: `filteredNodes` contains exactly the events satisfying every
recognized token kind — a logical AND across kinds, each kind satisfied by
some token of that kind (OR among repeated tokens); in particular, for events
tagged with the two step keys `A`, `B` and the filter `step:A type:failure`,
`filteredNodes` holds only the failure event of step `A`. -/
theorem applyFilter_intersection :
    (∀ (f : LogFilter) (events : List RunEvent) (sel : List String) (e : RunEvent),
        e ∈ (applyFilter f events sel).filteredNodes ↔
          e ∈ events ∧ ∀ kind ∈ recognizedTokenKinds,
            (∃ t ∈ f.tokens, t.token = kind) →
            ∃ t ∈ f.tokens, t.token = kind ∧ tokenMatches sel t e = true) ∧
    (applyFilter stepAFailureFilter twoStepEvents []).filteredNodes = [evFailA] := by
  refine ⟨?_, by decide⟩
  intro f events sel e
  rw [show (applyFilter f events sel).filteredNodes = events.filter (passesFilter f sel)
      from rfl, List.mem_filter]
  refine and_congr_right fun _ => ?_
  rw [passesFilter, List.all_eq_true]
  exact forall_congr' fun kind => imp_congr_right fun _ => kindPasses_iff f.tokens sel kind e

/-- Witness for C6 at a concrete input: the characterization instantiated at
the failure event of step `A` under the filter `step:A type:failure`. -/
theorem applyFilter_intersection_witness :
    evFailA ∈ (applyFilter stepAFailureFilter twoStepEvents []).filteredNodes ↔
      evFailA ∈ twoStepEvents ∧ ∀ kind ∈ recognizedTokenKinds,
        (∃ t ∈ stepAFailureFilter.tokens, t.token = kind) →
        ∃ t ∈ stepAFailureFilter.tokens, t.token = kind ∧
          tokenMatches [] t evFailA = true :=
  applyFilter_intersection.1 stepAFailureFilter twoStepEvents [] evFailA

/-- C7: `textMatchNodes` is a subset of `filteredNodes`, consisting exactly of
the filtered events whose message contains the free-text remainder as a
case-insensitive substring. -/
theorem textMatch_narrowing (f : LogFilter) (events : List RunEvent) (sel : List String) :
    (applyFilter f events sel).textMatchNodes ⊆ (applyFilter f events sel).filteredNodes ∧
    (∀ e, e ∈ (applyFilter f events sel).textMatchNodes ↔
        e ∈ (applyFilter f events sel).filteredNodes ∧
        msgContainsCI e.message f.text = true) := by
  have h : (applyFilter f events sel).textMatchNodes
      = (applyFilter f events sel).filteredNodes.filter
          (fun e => msgContainsCI e.message f.text) := rfl
  constructor
  · intro e he
    rw [h] at he
    exact (List.mem_filter.mp he).1
  · intro e
    rw [h, List.mem_filter]

/-- Witness for C7 at a concrete input: the step-`A` failure event is in
`textMatchNodes` for the filter `step:A type:failure` with empty free text,
hence by the subset property in `filteredNodes`. -/
theorem textMatch_narrowing_witness :
    evFailA ∈ (applyFilter stepAFailureFilter twoStepEvents []).filteredNodes :=
  (textMatch_narrowing stepAFailureFilter twoStepEvents []).1 (by decide)

/-- Witness for C4's amended statement at a concrete input: the chain graph,
with the membership characterization instantiated at key `B`. -/
theorem emptyVsStar_distinction_witness :
    queryStringToSelection chainABC "" = [] ∧
    ("B" ∈ queryStringToSelection chainABC "*" ↔ ∃ s, s ∈ chainABC ∧ s.key = "B") :=
  ⟨(emptyVsStar_distinction chainABC).1, (emptyVsStar_distinction chainABC).2.1 "B"⟩

/-- `jsIndexOf` misses exactly when the key is not in the list. -/
theorem jsIndexOf_eq_none_iff (k : String) :
    ∀ l : List String, jsIndexOf l k = none ↔ k ∉ l := by
  intro l
  induction l with
  | nil => simp [jsIndexOf]
  | cons a rest ih =>
    simp only [jsIndexOf]
    by_cases h : a = k
    · subst h; simp
    · have hb : (a == k) = false := by simp [h]
      rw [if_neg (by simp [h])]
      rw [Option.map_eq_none', ih, List.mem_cons]
      constructor
      · intro hk hor
        rcases hor with h2 | h2
        · exact h h2.symm
        · exact hk h2
      · intro hk h2
        exact hk (Or.inr h2)

/-- Erasing at the index `jsIndexOf` found removes the first occurrence. -/
theorem eraseIdx_jsIndexOf (k : String) :
    ∀ (l : List String) (i : Nat), jsIndexOf l k = some i → l.eraseIdx i = l.erase k := by
  intro l
  induction l with
  | nil => intro i h; simp [jsIndexOf] at h
  | cons a rest ih =>
    intro i h
    simp only [jsIndexOf] at h
    by_cases ha : a = k
    · rw [if_pos (by simp [ha])] at h
      injection h with h0
      subst h0
      rw [List.erase_cons, if_pos (by simp [ha])]
      rfl
    · rw [if_neg (by simp [ha])] at h
      obtain ⟨j, hj, rfl⟩ := Option.map_eq_some'.mp h
      rw [List.erase_cons, if_neg (by simp [ha])]
      show a :: rest.eraseIdx j = a :: rest.erase k
      rw [ih j hj]

/-- Filtering away the clicked key commutes with erasing its first
occurrence. -/
theorem filter_ne_erase (k : String) :
    ∀ l : List String,
      (l.erase k).filter (fun x => !(x == k)) = l.filter (fun x => !(x == k)) := by
  intro l
  induction l with
  | nil => simp
  | cons a rest ih =>
    rw [List.erase_cons]
    by_cases h : a = k
    · subst h
      rw [if_pos (by simp)]
      have hp : (!(a == a)) = false := by simp
      simp [List.filter_cons, hp]
    · have hb : (!(a == k)) = true := by simp [h]
      rw [if_neg (by simp [h])]
      simp [List.filter_cons, hb, ih]

/-- The plain-click clearing condition holds exactly for the singleton
selection of the clicked key. -/
theorem singleton_click_iff (l : List String) (k : String) :
    (l.length = 1 ∧ jsIndexOf l k ≠ none) ↔ l = [k] := by
  constructor
  · rintro ⟨hlen, hidx⟩
    obtain ⟨a, rfl⟩ := List.length_eq_one.mp hlen
    have hk : k ∈ [a] := by
      by_contra hk
      exact hidx ((jsIndexOf_eq_none_iff k [a]).mpr hk)
    simp at hk
    subst hk
    rfl
  · rintro rfl
    refine ⟨rfl, ?_⟩
    simp [jsIndexOf]

/-- C10 counterexample: clicking with the empty string as step key on an empty
selection yields the selection `[""]` whose join is empty, so the query becomes
`*` instead of the comma-space join of the (non-empty) selection; and a
shift-click on a selection holding a key twice removes only the first
occurrence, so the clicked key's membership is not toggled. -/
theorem onClickStep_counterexample :
    onClickStep ⟨"*", []⟩ "" false = ⟨"*", [""]⟩ ∧
    String.intercalate ", " [""] = "" ∧
    (onClickStep ⟨"A, A", ["A", "A"]⟩ "A" true).keys = ["A"] := by
  refine ⟨by decide, by decide, by decide⟩

/-- C10 amended: for a duplicate-free selection, shift-click toggles exactly
the clicked key's membership and leaves the other keys unchanged and in order;
a plain click on the singleton selection of the clicked key empties the
selection and any other plain click selects exactly the clicked key; the query
is the comma-space join of the new keys whenever that join is non-empty, and
`*` otherwise (in particular when the selection is empty). -/
theorem onClickStep_behavior (sel : StepSelection) (stepKey : String)
    (hnd : sel.keys.Nodup) :
    (stepKey ∈ (onClickStep sel stepKey true).keys ↔ stepKey ∉ sel.keys) ∧
    ((onClickStep sel stepKey true).keys.filter (fun k => !(k == stepKey))
        = sel.keys.filter (fun k => !(k == stepKey))) ∧
    ((onClickStep sel stepKey false).keys
        = if sel.keys = [stepKey] then [] else [stepKey]) ∧
    (∀ shift, (onClickStep sel stepKey shift).query =
        if String.intercalate ", " ((onClickStep sel stepKey shift).keys) = "" then "*"
        else String.intercalate ", " ((onClickStep sel stepKey shift).keys)) := by
  have hshift : (onClickStep sel stepKey true).keys
      = match jsIndexOf sel.keys stepKey with
        | some i => sel.keys.eraseIdx i
        | none => sel.keys ++ [stepKey] := rfl
  refine ⟨?_, ?_, ?_, fun shift => rfl⟩
  · rw [hshift]
    cases hidx : jsIndexOf sel.keys stepKey with
    | none =>
      have hmem : stepKey ∉ sel.keys := (jsIndexOf_eq_none_iff stepKey sel.keys).mp hidx
      simp [hmem]
    | some i =>
      have hmem : stepKey ∈ sel.keys := by
        by_contra hk
        rw [(jsIndexOf_eq_none_iff stepKey sel.keys).mpr hk] at hidx
        exact Option.noConfusion hidx
      show stepKey ∈ sel.keys.eraseIdx i ↔ stepKey ∉ sel.keys
      rw [eraseIdx_jsIndexOf stepKey sel.keys i hidx]
      simp only [hnd.mem_erase_iff]
      simp [hmem]
  · rw [hshift]
    cases hidx : jsIndexOf sel.keys stepKey with
    | none =>
      have hp : (!(stepKey == stepKey)) = false := by simp
      simp [List.filter_append, List.filter_cons, hp]
    | some i =>
      show (sel.keys.eraseIdx i).filter (fun k => !(k == stepKey))
          = sel.keys.filter (fun k => !(k == stepKey))
      rw [eraseIdx_jsIndexOf stepKey sel.keys i hidx, filter_ne_erase]
  · have hplain : (onClickStep sel stepKey false).keys
        = if sel.keys.length = 1 ∧ jsIndexOf sel.keys stepKey ≠ none then []
          else [stepKey] := rfl
    rw [hplain]
    by_cases h : sel.keys = [stepKey]
    · rw [if_pos ((singleton_click_iff sel.keys stepKey).mpr h), if_pos h]
    · rw [if_neg (fun hc => h ((singleton_click_iff sel.keys stepKey).mp hc)), if_neg h]

/-- Witness for C10's amended statement at a concrete input: the duplicate-free
selection `["A"]` shift-clicked and plain-clicked with key `B`. -/
theorem onClickStep_behavior_witness :
    ("B" ∈ (onClickStep ⟨"A", ["A"]⟩ "B" true).keys ↔ "B" ∉ (["A"] : List String)) ∧
    ((onClickStep ⟨"A", ["A"]⟩ "B" false).keys
        = if (["A"] : List String) = ["B"] then [] else ["B"]) :=
  ⟨(onClickStep_behavior ⟨"A", ["A"]⟩ "B" (by decide)).1,
   (onClickStep_behavior ⟨"A", ["A"]⟩ "B" (by decide)).2.2.1⟩

/-- The state-machine-relevant core of a step record: lifecycle state, start
and end timestamps (the marker list is deliberately not idempotent). -/
def recCore (r : StepRecord) : IStepState × Option Nat × Option Nat :=
  (r.state, r.startT, r.endT)

/-- The per-step transition reads and writes only the core of the record. -/
theorem applyStepEvent_core_congr (r r' : StepRecord) (e : RunEvent)
    (h : recCore r = recCore r') :
    recCore (applyStepEvent r e) = recCore (applyStepEvent r' e) := by
  have h1 : r.state = r'.state := congrArg (fun p => p.1) h
  have h2 : r.startT = r'.startT := congrArg (fun p => p.2.1) h
  have h3 : r.endT = r'.endT := congrArg (fun p => p.2.2) h
  rcases e with ⟨msg, ts, lvl, sk, v⟩
  cases v <;>
    simp only [applyStepEvent, applyTerminal, staleFor, recCore, h1, h2, h3] <;>
    (try split) <;>
    simp [h1, h2, h3]

/-- Applying the same event twice in a row leaves the core of the record as
after one application. -/
theorem applyStepEvent_core_idem (r : StepRecord) (e : RunEvent) :
    recCore (applyStepEvent (applyStepEvent r e) e) = recCore (applyStepEvent r e) := by
  rcases e with ⟨msg, ts, lvl, sk, v⟩
  cases v
  case stepStart =>
    by_cases hc : isTerminal r.state = true ∧
        staleFor r ⟨msg, ts, lvl, sk, .stepStart⟩ = true
    · simp only [applyStepEvent, if_pos hc]
    · simp only [applyStepEvent, if_neg hc]
      rw [if_neg]
      · simp [recCore]
      · rintro ⟨ht, -⟩
        simp [isTerminal] at ht
  case stepSuccess =>
    by_cases h : isTerminal r.state = true
    · simp only [applyStepEvent, applyTerminal, if_pos h]
    · simp only [applyStepEvent, applyTerminal, if_neg h]
      split
      · simp [recCore]
      · rename_i hcond; exact absurd rfl hcond
  case stepFailure =>
    by_cases h : isTerminal r.state = true
    · simp only [applyStepEvent, applyTerminal, if_pos h]
    · simp only [applyStepEvent, applyTerminal, if_neg h]
      split
      · simp [recCore]
      · rename_i hcond; exact absurd rfl hcond
  case stepSkipped =>
    by_cases h : isTerminal r.state = true
    · simp only [applyStepEvent, applyTerminal, if_pos h]
    · simp only [applyStepEvent, applyTerminal, if_neg h]
      split
      · simp [recCore]
      · rename_i hcond; exact absurd rfl hcond
  case stepRetryRequested =>
    by_cases hc : r.state = .running ∨ (isTerminal r.state = true ∧
        staleFor r ⟨msg, ts, lvl, sk, .stepRetryRequested⟩ = false)
    · simp only [applyStepEvent, if_pos hc]
      rw [if_neg]
      · rintro (hr | ⟨ht, -⟩)
        · exact IStepState.noConfusion hr
        · simp [isTerminal] at ht
    · simp only [applyStepEvent, if_neg hc]
  case materialization => simp [applyStepEvent, recCore]
  case expectationResult => simp [applyStepEvent, recCore]
  case other tag => simp [applyStepEvent, recCore]

/-- Core congruence extended along a fold of the event log. -/
theorem foldl_core_congr :
    ∀ (es : List RunEvent) (k : String) (r r' : StepRecord),
      recCore r = recCore r' →
      recCore (es.foldl (applyEventForKey k) r)
        = recCore (es.foldl (applyEventForKey k) r') := by
  intro es
  induction es with
  | nil => intro k r r' h; simpa using h
  | cons e rest ih =>
    intro k r r' h
    simp only [List.foldl_cons]
    apply ih
    unfold applyEventForKey
    by_cases hk : e.stepKey = some k
    · rw [if_pos hk, if_pos hk]
      exact applyStepEvent_core_congr r r' e h
    · rw [if_neg hk, if_neg hk]
      exact h

/-- Key-guarded idempotence of one event application. -/
theorem applyEventForKey_core_idem (k : String) (r : StepRecord) (e : RunEvent) :
    recCore (applyEventForKey k (applyEventForKey k r e) e)
      = recCore (applyEventForKey k r e) := by
  unfold applyEventForKey
  by_cases hk : e.stepKey = some k
  · rw [if_pos hk, if_pos hk]
    exact applyStepEvent_core_idem r e
  · rw [if_neg hk, if_neg hk]

/-- Folding the log with every event duplicated yields the same record core. -/
theorem foldl_core_dup :
    ∀ (es : List RunEvent) (k : String) (r : StepRecord),
      recCore ((duplicateEach es).foldl (applyEventForKey k) r)
        = recCore (es.foldl (applyEventForKey k) r) := by
  intro es
  induction es with
  | nil => intro k r; rfl
  | cons e rest ih =>
    intro k r
    show recCore ((duplicateEach rest).foldl (applyEventForKey k)
          (applyEventForKey k (applyEventForKey k r e) e))
        = recCore (rest.foldl (applyEventForKey k) (applyEventForKey k r e))
    calc recCore ((duplicateEach rest).foldl (applyEventForKey k)
            (applyEventForKey k (applyEventForKey k r e) e))
        = recCore ((duplicateEach rest).foldl (applyEventForKey k)
            (applyEventForKey k r e)) :=
          foldl_core_congr (duplicateEach rest) k _ _ (applyEventForKey_core_idem k r e)
      _ = recCore (rest.foldl (applyEventForKey k) (applyEventForKey k r e)) := ih k _

/-- The first-seen referenced keys are unchanged by duplicating every event. -/
theorem firstSeenDedup_dup_events :
    ∀ (es : List RunEvent) (seen : List String),
      firstSeenDedup seen ((duplicateEach es).filterMap (fun e => e.stepKey))
        = firstSeenDedup seen (es.filterMap (fun e => e.stepKey)) := by
  intro es
  induction es with
  | nil => intro seen; rfl
  | cons e rest ih =>
    intro seen
    cases hk : e.stepKey with
    | none =>
      show firstSeenDedup seen ((e :: e :: duplicateEach rest).filterMap (fun e => e.stepKey))
          = firstSeenDedup seen ((e :: rest).filterMap (fun e => e.stepKey))
      simp only [List.filterMap_cons, hk]
      exact ih seen
    | some k =>
      show firstSeenDedup seen ((e :: e :: duplicateEach rest).filterMap (fun e => e.stepKey))
          = firstSeenDedup seen ((e :: rest).filterMap (fun e => e.stepKey))
      simp only [List.filterMap_cons, hk]
      by_cases hs : k ∈ seen
      · simp only [firstSeenDedup, if_pos hs]
        exact ih seen
      · have hs2 : k ∈ k :: seen := List.mem_cons_self _ _
        simp only [firstSeenDedup, if_neg hs, if_pos hs2]
        rw [ih (k :: seen)]

/-- Duplicating every event leaves the referenced-key list unchanged. -/
theorem referencedKeys_dup (es : List RunEvent) :
    referencedKeys (duplicateEach es) = referencedKeys es :=
  firstSeenDedup_dup_events es []

/-- C1: the reducer is pure — identical input yields identical output — and
appending every event twice in the same order yields the same per-step
lifecycle state for every step key. -/
theorem deriveRunMetadata_idempotent (plan : Option ExecutionPlanGraph)
    (events : List RunEvent) :
    deriveRunMetadata plan events = deriveRunMetadata plan events ∧
    ∀ key, stateOf (deriveRunMetadata plan (duplicateEach events)) key
        = stateOf (deriveRunMetadata plan events) key := by
  refine ⟨rfl, fun key => ?_⟩
  have hsteps : ∀ es : List RunEvent, (deriveRunMetadata plan es).steps
      = (referencedKeys es).map (fun k => (k, stepRecordOf es k)) := fun _ => rfl
  simp only [stateOf, hsteps, lookup_map_pair, referencedKeys_dup]
  by_cases hmem : key ∈ referencedKeys events
  · rw [if_pos hmem, if_pos hmem]
    show (stepRecordOf (duplicateEach events) key).state = (stepRecordOf events key).state
    exact congrArg (fun p => p.1) (foldl_core_dup events key initialStepRecord)
  · rw [if_neg hmem, if_neg hmem]

/-- The lifecycle successor relation encoding spec §4.1 / §8: states progress
along `PREPARING → RUNNING → {SUCCEEDED | FAILED | SKIPPED}` (a subsequence
may skip `RUNNING`), may stay put, and retries may leave a running or terminal
state through `RETRY` and re-enter `RUNNING` (a non-stale restart re-enters
`RUNNING` directly). -/
def lifecycleNext (a b : IStepState) : Bool :=
  if a = b then true
  else
    match a, b with
    | .preparing, .running => true
    | .preparing, .succeeded => true
    | .preparing, .failed => true
    | .preparing, .skipped => true
    | .running, .succeeded => true
    | .running, .failed => true
    | .running, .skipped => true
    | .running, .retry => true
    | .succeeded, .retry => true
    | .failed, .retry => true
    | .skipped, .retry => true
    | .succeeded, .running => true
    | .failed, .running => true
    | .skipped, .running => true
    | .retry, .running => true
    | .retry, .succeeded => true
    | .retry, .failed => true
    | .retry, .skipped => true
    | _, _ => false

/-- The lifecycle states a step visits while the log is folded, starting from
the initial record: the trace the monotonic-lifecycle property speaks about. -/
def stepTrace (k : String) (r : StepRecord) : List RunEvent → List IStepState
  | [] => [r.state]
  | e :: rest => r.state :: stepTrace k (applyEventForKey k r e) rest

/-- The visited-state trace of one step over the full event log. -/
def stateTrace (events : List RunEvent) (k : String) : List IStepState :=
  stepTrace k initialStepRecord events

/-- The reducer never produces the `UNKNOWN` state from a non-`UNKNOWN` one. -/
theorem applyStepEvent_no_unknown (r : StepRecord) (e : RunEvent)
    (h : r.state ≠ .unknown) : (applyStepEvent r e).state ≠ .unknown := by
  rcases e with ⟨msg, ts, lvl, sk, v⟩
  cases v
  case stepStart =>
    simp only [applyStepEvent]
    split
    · exact h
    · simp
  case stepSuccess =>
    simp only [applyStepEvent, applyTerminal]
    split
    · exact h
    · simp
  case stepFailure =>
    simp only [applyStepEvent, applyTerminal]
    split
    · exact h
    · simp
  case stepSkipped =>
    simp only [applyStepEvent, applyTerminal]
    split
    · exact h
    · simp
  case stepRetryRequested =>
    simp only [applyStepEvent]
    split
    · simp
    · exact h
  case materialization => exact h
  case expectationResult => exact h
  case other tag => exact h

/-- Every non-`UNKNOWN` state may step to `RUNNING`. -/
theorem lifecycleNext_to_running (s : IStepState) (h : s ≠ .unknown) :
    lifecycleNext s .running = true := by
  cases s
  case unknown => exact absurd rfl h
  all_goals decide

/-- Every running or terminal state may step to `RETRY`. -/
theorem lifecycleNext_to_retry (s : IStepState)
    (h : s = .running ∨ isTerminal s = true) : lifecycleNext s .retry = true := by
  cases s <;> first
    | decide
    | (rcases h with h | h
       · exact IStepState.noConfusion h
       · exact absurd h (by decide))

/-- Every non-terminal, non-`UNKNOWN` state may step to a terminal state. -/
theorem lifecycleNext_to_terminal (s t : IStepState) (hs : s ≠ .unknown)
    (hsn : isTerminal s = false) (ht : isTerminal t = true) :
    lifecycleNext s t = true := by
  cases s <;> cases t <;> first
    | decide
    | exact absurd rfl hs
    | exact absurd hsn (by decide)
    | exact absurd ht (by decide)

/-- Each transition the per-step transition function makes is a lifecycle
successor. -/
theorem applyStepEvent_allowed (r : StepRecord) (e : RunEvent)
    (h : r.state ≠ .unknown) :
    lifecycleNext r.state (applyStepEvent r e).state = true := by
  have hrefl : ∀ s : IStepState, lifecycleNext s s = true := by intro s; simp [lifecycleNext]
  rcases e with ⟨msg, ts, lvl, sk, v⟩
  cases v
  case stepStart =>
    simp only [applyStepEvent]
    split
    · exact hrefl _
    · exact lifecycleNext_to_running r.state h
  case stepSuccess =>
    simp only [applyStepEvent, applyTerminal]
    split
    · exact hrefl _
    · rename_i hc
      exact lifecycleNext_to_terminal r.state .succeeded h
        (by simpa using hc) (by decide)
  case stepFailure =>
    simp only [applyStepEvent, applyTerminal]
    split
    · exact hrefl _
    · rename_i hc
      exact lifecycleNext_to_terminal r.state .failed h
        (by simpa using hc) (by decide)
  case stepSkipped =>
    simp only [applyStepEvent, applyTerminal]
    split
    · exact hrefl _
    · rename_i hc
      exact lifecycleNext_to_terminal r.state .skipped h
        (by simpa using hc) (by decide)
  case stepRetryRequested =>
    simp only [applyStepEvent]
    split
    · rename_i hc
      exact lifecycleNext_to_retry r.state (hc.imp id And.left)
    · exact hrefl _
  case materialization => exact hrefl _
  case expectationResult => exact hrefl _
  case other tag => exact hrefl _

/-- The trace always starts with the state of the record it is folded from. -/
theorem stepTrace_head (k : String) (r : StepRecord) :
    ∀ es : List RunEvent, (stepTrace k r es).head? = some r.state := by
  intro es
  cases es <;> rfl

/-- Every adjacent pair of a step's visited-state trace is a lifecycle
successor. -/
theorem stepTrace_chain (k : String) :
    ∀ (es : List RunEvent) (r : StepRecord), r.state ≠ .unknown →
      List.Chain' (fun a b => lifecycleNext a b = true) (stepTrace k r es) := by
  intro es
  induction es with
  | nil => intro r h; exact List.chain'_singleton _
  | cons e rest ih =>
    intro r h
    show List.Chain' _ (r.state :: stepTrace k (applyEventForKey k r e) rest)
    rw [List.chain'_cons']
    constructor
    · intro b hb
      rw [stepTrace_head] at hb
      have hb2 : b = (applyEventForKey k r e).state := by
        cases hb
        rfl
      subst hb2
      unfold applyEventForKey
      split
      · exact applyStepEvent_allowed r e h
      · simp [lifecycleNext]
    · apply ih
      unfold applyEventForKey
      split
      · exact applyStepEvent_no_unknown r e h
      · exact h

/-- C2: for every ordered event log and step key, the visited lifecycle-state
trace only moves along the lifecycle successor relation — a subsequence of
`PREPARING → RUNNING → {SUCCEEDED | FAILED | SKIPPED}` with retries re-entering
`RUNNING` — and a recorded terminal state is never overwritten by a
later-in-log non-terminal event carrying a strictly earlier timestamp, while a
timestamp tie is resolved in favor of the later-in-log start event. -/
theorem stepLifecycle_monotonic (events : List RunEvent) (k : String) :
    List.Chain' (fun a b => lifecycleNext a b = true) (stateTrace events k) ∧
    (∀ (r : StepRecord) (e : RunEvent) (tEnd : Nat),
        isTerminal r.state = true → r.endT = some tEnd →
        isTerminalEvent e.variant = false → e.timestamp < tEnd →
        (applyStepEvent r e).state = r.state) ∧
    (∀ (r : StepRecord) (e : RunEvent) (tEnd : Nat),
        isTerminal r.state = true → r.endT = some tEnd →
        e.variant = .stepStart → e.timestamp = tEnd →
        (applyStepEvent r e).state = .running) := by
  refine ⟨stepTrace_chain k events initialStepRecord (by decide), ?_, ?_⟩
  · intro r e tEnd hterm hend hnt hlt
    have hstale : staleFor r e = true := by simp [staleFor, hend, hlt]
    rcases e with ⟨msg, ts, lvl, sk, v⟩
    cases v
    case stepStart =>
      simp only [applyStepEvent, if_pos (And.intro hterm hstale)]
    case stepSuccess => exact absurd hnt (by simp [isTerminalEvent])
    case stepFailure => exact absurd hnt (by simp [isTerminalEvent])
    case stepSkipped => exact absurd hnt (by simp [isTerminalEvent])
    case stepRetryRequested =>
      simp only [applyStepEvent]
      rw [if_neg]
      rintro (hr | ⟨-, hs⟩)
      · rw [hr] at hterm
        exact absurd hterm (by decide)
      · rw [hstale] at hs
        exact Bool.noConfusion hs
    case materialization => rfl
    case expectationResult => rfl
    case other tag => rfl
  · intro r e tEnd hterm hend hv htie
    rcases e with ⟨msg, ts, lvl, sk, v⟩
    simp only at hv
    subst hv
    simp only [applyStepEvent]
    rw [if_neg]
    rintro ⟨-, hs⟩
    simp only at htie
    subst htie
    simp [staleFor, hend] at hs

/-- Witness for C2 at concrete inputs: a one-event trace is a lifecycle chain;
a terminal record with end time 5 ignores a stale start at time 3; a start at
the tied time 5 re-enters `RUNNING` by log order. -/
theorem stepLifecycle_monotonic_witness :
    List.Chain' (fun a b => lifecycleNext a b = true) (stateTrace [evStartA] "A") ∧
    (applyStepEvent sampleTerminalRecord staleStartEvent).state
      = sampleTerminalRecord.state ∧
    (applyStepEvent sampleTerminalRecord tieStartEvent).state = .running :=
  ⟨(stepLifecycle_monotonic [evStartA] "A").1,
   (stepLifecycle_monotonic [] "A").2.1 sampleTerminalRecord staleStartEvent 5
     rfl rfl rfl (by decide),
   (stepLifecycle_monotonic [] "A").2.2 sampleTerminalRecord tieStartEvent 5
     rfl rfl rfl rfl⟩
